import Mathlib

set_option maxRecDepth 40000

/-!
# Verification of the `LatticeTrie` word-graph builder

Shallow embedding of `src/data_structure/lattice_trie.py`.

The Python program builds a trie with interleaved, path-local minimization:
`insert` walks/extends the trie character by character (phase 1), links the
final node to a single shared sink (`end_node`) under the reserved edge label
`"<END>"`, and then walks the inserted path bottom-up (phase 2), merging each
path node into the representative stored in the persistent registry
`minimized_nodes` whenever the node's structural key is already present.

Python objects are modelled as a heap `Nat → Node` addressed by node ids;
object identity (`id(v)`, `is`) becomes equality of node ids.  The root is
node `0` and the shared sink (`end_node`) is node `1`.  Python dicts are
insertion-ordered association lists; Python's `frozenset((k, id(v)) ...)`
keys are modelled by sorting the association pairs by an injective rank, so
that two children dicts get equal keys exactly when their pair sets are equal.
-/

/-- Edge labels: a single character, or the reserved `"<END>"` terminator
label.  In Python these are the 1-character strings of the word and the
5-character string `"<END>"`, which can never collide. -/
inductive Label where
  | chr (c : Char)
  | endL
deriving DecidableEq, Repr

/-- A node's own character tag: `''` for the root, `"END"` for the sink,
or a single character. -/
inductive NChar where
  | root
  | endC
  | chr (c : Char)
deriving DecidableEq, Repr

/-- The `Node` class: `char`, insertion-ordered `children` dict mapping an
edge label to a child node id, `is_end_of_word`, `words_ending_here`,
`count`, and `level` (an integer, since `_assign_levels` uses `-1`). -/
structure Node where
  char : NChar
  children : List (Label × Nat)
  is_end_of_word : Bool
  words_ending_here : List (List Char)
  count : Nat
  level : Int
deriving DecidableEq, Repr

/-- A fresh `Node(char)`: empty children, not end of word, count 0, level 0. -/
def mkNode (c : NChar) : Node :=
  { char := c, children := [], is_end_of_word := false,
    words_ending_here := [], count := 0, level := 0 }

/-- Python dict lookup `d[k]` / `k in d` on an association list. -/
def lookupE : List (Label × Nat) → Label → Option Nat
  | [], _ => none
  | (k, v) :: rest, l => if k = l then some v else lookupE rest l

/-- Python dict assignment `d[k] = v`: overwrite in place if the key is
present (keeping its position), otherwise append at the end. -/
def setEdge : List (Label × Nat) → Label → Nat → List (Label × Nat)
  | [], l, v => [(l, v)]
  | (k, w) :: rest, l, v =>
    if k = l then (l, v) :: rest else (k, w) :: setEdge rest l v

/-- The parent-edge rewrite of phase 2:
`for k, v in parent.children.items(): if v is n: parent.children[k] = canon; break`
— replace the value of the first entry whose value is `old` by `new`. -/
def retarget : List (Label × Nat) → Nat → Nat → List (Label × Nat)
  | [], _, _ => []
  | (k, w) :: rest, old, new =>
    if w = old then (k, new) :: rest else (k, w) :: retarget rest old new

/-- Injective rank used to order `(label, id)` pairs, so that the sorted
pair list is a canonical representative of the Python `frozenset`. -/
def labelRank : Label → Nat
  | .endL => 0
  | .chr c => c.toNat + 1

/-- Order on `(label, id)` pairs (lexicographic by label rank, then id). -/
def pairLe (p q : Label × Nat) : Bool :=
  labelRank p.1 < labelRank q.1 ||
    (labelRank p.1 = labelRank q.1 && p.2 ≤ q.2)

/-- Insertion of a pair into a sorted pair list. -/
def insSorted (p : Label × Nat) : List (Label × Nat) → List (Label × Nat)
  | [] => [p]
  | q :: rest => if pairLe p q then p :: q :: rest else q :: insSorted p rest

/-- Canonical (sorted) representative of a children dict viewed as a
`frozenset` of `(label, id)` pairs. -/
def keySort : List (Label × Nat) → List (Label × Nat)
  | [] => []
  | p :: rest => insSorted p (keySort rest)

/-- The canonical key of `_get_canonical_node`:
`(node.char, node.is_end_of_word, frozenset((k, id(v)) for k, v in node.children.items()))`. -/
structure NKey where
  char : NChar
  flag : Bool
  kids : List (Label × Nat)
deriving DecidableEq, Repr

/-- Key of a node in its current state. -/
def nodeKey (nd : Node) : NKey :=
  ⟨nd.char, nd.is_end_of_word, keySort nd.children⟩

/-- Lookup in the `minimized_nodes` registry (a Python dict keyed by `NKey`). -/
def regLookup : List (NKey × Nat) → NKey → Option Nat
  | [], _ => none
  | (k, v) :: rest, key => if k = key then some v else regLookup rest key

/-- Python `set.add` on the live-node set (modelled as a duplicate-free list). -/
def addNode (l : List Nat) (n : Nat) : List Nat :=
  if n ∈ l then l else l ++ [n]

/-- The `LatticeTrie` object: heap of nodes addressed by id, allocation
counter, the live-node set `nodes`, the persistent canonical-key registry
`minimized_nodes`, and the list of (lower-cased) inserted `words`.
The root is id `0`, the shared sink `end_node` is id `1`. -/
structure LatticeTrie where
  heap : Nat → Node
  nextId : Nat
  nodes : List Nat
  minimized_nodes : List (NKey × Nat)
  words : List (List Char)

/-- Heap update at one id. -/
def updH (h : Nat → Node) (i : Nat) (n : Node) : Nat → Node :=
  fun j => if j = i then n else h j

/-- `LatticeTrie.__init__`: root node `0`, sink node `1` (char `"END"`,
marked end-of-word), live set `{root, end_node}`, empty registry, no words. -/
def LatticeTrie.init : LatticeTrie :=
  { heap := fun i =>
      if i = 1 then { mkNode .endC with is_end_of_word := true } else mkNode .root
  , nextId := 2
  , nodes := [0, 1]
  , minimized_nodes := []
  , words := [] }

/-- Python `str.lower` on a single character (ASCII case folding, which is
what the repository's inputs exercise). -/
def pyLower (c : Char) : Char :=
  if 65 ≤ c.toNat ∧ c.toNat ≤ 90 then Char.ofNat (c.toNat + 32) else c

/-- `word.lower()`. -/
def lowerStr (w : List Char) : List Char := w.map pyLower

/-- `current_node.count += 1`. -/
def bumpCount (s : LatticeTrie) (child : Nat) : LatticeTrie :=
  let bumped : Node := { s.heap child with count := (s.heap child).count + 1 }
  { s with heap := updH s.heap child bumped }

/-- The node-creation step of phase 1 when the character is missing:
allocate `Node(char)` under the fresh id `nextId`, append the edge to
`cur.children`, and add the fresh node to the live set. -/
def addChild (s : LatticeTrie) (cur : Nat) (c : Char) : LatticeTrie :=
  { s with
    heap := updH (updH s.heap s.nextId (mkNode (.chr c))) cur
      ({ s.heap cur with
         children := (s.heap cur).children ++ [(.chr c, s.nextId)] })
  , nextId := s.nextId + 1
  , nodes := addNode s.nodes s.nextId }

/-- Phase 1 of `insert`: walk from `cur` along the characters, creating
missing child nodes, incrementing each visited child's `count`, and
collecting the visited children as the path stack.  Returns the final
state, the final node, and the stack in walk order. -/
def phase1 : LatticeTrie → Nat → List Char → LatticeTrie × Nat × List Nat
  | s, cur, [] => (s, cur, [])
  | s, cur, c :: cs =>
    match lookupE (s.heap cur).children (.chr c) with
    | some cid =>
      let rest := phase1 (bumpCount s cid) cid cs
      (rest.1, rest.2.1, cid :: rest.2.2)
    | none =>
      let nid := s.nextId
      let rest := phase1 (bumpCount (addChild s cur c) nid) nid cs
      (rest.1, rest.2.1, nid :: rest.2.2)

/-- The terminal bookkeeping of `insert`: link the final node to the sink
(`current.children["<END>"] = end_node`), append the lower-cased word to
`self.words`, mark the node as end of word, and record the word on it. -/
def markTerminal (s : LatticeTrie) (last : Nat) (wl : List Char) : LatticeTrie :=
  let n := s.heap last
  let n1 : Node :=
    { n with
      children := setEdge n.children .endL 1
    , is_end_of_word := true
    , words_ending_here := n.words_ending_here ++ [wl] }
  { s with heap := updH s.heap last n1, words := s.words ++ [wl] }

/-- One phase-2 step on path node `nid` with (optional) on-path parent:
compute the node's canonical key, consult the registry (registering the
node when the key is new), and when the registry holds a different
representative, merge the node's properties into the representative,
rewrite the parent's first edge into `nid` (only when a parent exists,
i.e. `i > 0`), and discard `nid` from the live set. -/
def mergeProps (s : LatticeTrie) (nid canon : Nat) : LatticeTrie :=
  let nd := s.heap nid
  let cn := s.heap canon
  let cn1 : Node :=
    { cn with
      is_end_of_word := if nd.is_end_of_word then true else cn.is_end_of_word
    , words_ending_here := cn.words_ending_here ++ nd.words_ending_here
    , count := cn.count + nd.count }
  { s with heap := updH s.heap canon cn1 }

def rewriteParent (s : LatticeTrie) (nid canon : Nat) : Option Nat → LatticeTrie
  | none => s
  | some p =>
    let pn : Node :=
      { s.heap p with children := retarget (s.heap p).children nid canon }
    { s with heap := updH s.heap p pn }

def phase2Step (s : LatticeTrie) (nid : Nat) (parent : Option Nat) : LatticeTrie :=
  match regLookup s.minimized_nodes (nodeKey (s.heap nid)) with
  | none =>
    { s with minimized_nodes := s.minimized_nodes ++ [(nodeKey (s.heap nid), nid)] }
  | some canon =>
    if canon = nid then s
    else
      let s2 := rewriteParent (mergeProps s nid canon) nid canon parent
      { s2 with nodes := s2.nodes.erase nid }

/-- Phase 2 over the reversed path stack: process deepest node first; the
on-path parent of each processed node is the next element of the reversed
stack (`path_nodes_stack[i-1]`), absent for the first path node (`i = 0`). -/
def phase2Rev : LatticeTrie → List Nat → LatticeTrie
  | s, [] => s
  | s, x :: rest => phase2Rev (phase2Step s x rest.head?) rest

/-- `LatticeTrie.insert(word)`. -/
def insertW (s : LatticeTrie) (w : List Char) : LatticeTrie :=
  let wl := lowerStr w
  let p := phase1 s 0 wl
  let s2 := markTerminal p.1 p.2.1 wl
  phase2Rev s2 p.2.2.reverse

/-- Insert a list of words in order. -/
def insertList (s : LatticeTrie) (ws : List (List Char)) : LatticeTrie :=
  ws.foldl insertW s

/-- The walk of `search`: follow single-character edges from a node. -/
def walkFrom (s : LatticeTrie) : Nat → List Char → Option Nat
  | cur, [] => some cur
  | cur, c :: cs =>
    match lookupE (s.heap cur).children (.chr c) with
    | none => none
    | some nxt => walkFrom s nxt cs

/-! ## `_assign_levels`

The Python method runs three stages over the mutable `level` fields:
an initial breadth-first pass (stage A), a re-initialisation to `-1`
followed by a queue-driven relaxation pass (stage B), and up to
`max_word_length + 1` Bellman-Ford-style passes over the live nodes with an
early exit when a pass changes nothing (stage C).  The two `while queue:`
loops are modelled with an explicit fuel parameter standing for Python's
unbounded iteration; on the inputs considered here the fuel is ample, so the
modelled runs coincide with Python's.  Stage C iterates over the live-node
set (`list(self.nodes)`); the iteration order of a Python set is
implementation-defined, and the model uses the insertion-ordered live list
(for the inputs treated below the outcome is order-independent, since the
passes reach a state where no edge is relaxable in any order). -/

/-- Set the `level` of every node in the list to `v`
(`for node in self.nodes: node.level = ...`). -/
def setLevels (s : LatticeTrie) : List Nat → Int → LatticeTrie
  | [], _ => s
  | n :: rest, v =>
    setLevels { s with heap := updH s.heap n { s.heap n with level := v } } rest v

/-- Stage A enqueueing: append `(child, cur.level + 1)` for every child with
`cur.level + 1 > child.level or child not in processed`. -/
def enqueueA (s : LatticeTrie) (cur : Nat) (processed : List Nat) : List (Nat × Int) :=
  (s.heap cur).children.filterMap fun p =>
    if (s.heap cur).level + 1 > (s.heap p.2).level ∨ p.2 ∉ processed then
      some (p.2, (s.heap cur).level + 1)
    else none

/-- Stage A: the first breadth-first pass of `_assign_levels`. -/
def loopA : Nat → LatticeTrie → List (Nat × Int) → List Nat → LatticeTrie
  | 0, s, _, _ => s
  | _ + 1, s, [], _ => s
  | fuel + 1, s, (cur, lvl) :: queue, processed =>
    let s1 :=
      if lvl > (s.heap cur).level then
        { s with heap := updH s.heap cur { s.heap cur with level := lvl } }
      else s
    let processed1 := if cur ∈ processed then processed else processed ++ [cur]
    loopA fuel s1 (queue ++ enqueueA s1 cur processed1) processed1

/-- Stage B inner loop over the children of the popped node: relax each
child's level and enqueue it when it is not already queued. -/
def relaxB (s : LatticeTrie) (cur : Nat) :
    List (Label × Nat) → List (Nat × Int) → List Nat →
    LatticeTrie × List (Nat × Int) × List Nat
  | [], queue, inq => (s, queue, inq)
  | (_, ch) :: rest, queue, inq =>
    if (s.heap cur).level + 1 > (s.heap ch).level then
      let s1 : LatticeTrie :=
        { s with heap := updH s.heap ch { s.heap ch with level := (s.heap cur).level + 1 } }
      if ch ∈ inq then relaxB s1 cur rest queue inq
      else relaxB s1 cur rest (queue ++ [(ch, (s1.heap ch).level)]) (inq ++ [ch])
    else relaxB s cur rest queue inq

/-- Stage B: the queue-driven relaxation pass of `_assign_levels`. -/
def loopB : Nat → LatticeTrie → List (Nat × Int) → List Nat → LatticeTrie
  | 0, s, _, _ => s
  | _ + 1, s, [], _ => s
  | fuel + 1, s, (cur, lvl) :: queue, inq =>
    let inq1 := inq.erase cur
    let s1 :=
      if lvl > (s.heap cur).level then
        { s with heap := updH s.heap cur { s.heap cur with level := lvl } }
      else s
    let r := relaxB s1 cur (s1.heap cur).children queue inq1
    loopB fuel r.1 r.2.1 r.2.2

/-- Stage C relaxation of one node's out-edges (the `end_node` branch and the
general branch coincide up to the special-cased target). -/
def relaxCNode (s : LatticeTrie) (n : Nat) (upd : Bool) :
    List (Label × Nat) → LatticeTrie × Bool
  | [] => (s, upd)
  | (_, ch) :: rest =>
    if (s.heap n).level ≠ -1 ∧ (s.heap n).level + 1 > (s.heap ch).level then
      let s1 : LatticeTrie :=
        { s with heap := updH s.heap ch { s.heap ch with level := (s.heap n).level + 1 } }
      relaxCNode s1 n true rest
    else relaxCNode s n upd rest

/-- One stage C pass over the given live nodes. -/
def relaxCPass (s : LatticeTrie) (upd : Bool) : List Nat → LatticeTrie × Bool
  | [] => (s, upd)
  | n :: rest =>
    let r := relaxCNode s n upd (s.heap n).children
    relaxCPass r.1 r.2 rest

/-- Stage C: at most `max_word_length + 1` passes, stopping early when a pass
performs no update. -/
def loopC (s : LatticeTrie) : Nat → LatticeTrie
  | 0 => s
  | k + 1 =>
    let r := relaxCPass s false s.nodes
    if r.2 then loopC r.1 k else r.1

/-- `max(len(word) for word in self.words)` with the `50` fallback for an
empty word list. -/
def maxWordLen (s : LatticeTrie) : Nat :=
  match s.words with
  | [] => 50
  | w :: ws => (ws.map List.length).foldl max w.length

/-- `LatticeTrie._assign_levels`, with fuel for the two unbounded queue
loops. -/
def assignLevels (s : LatticeTrie) (fuelA fuelB : Nat) : LatticeTrie :=
  let sA0 := setLevels s s.nodes 0
  let sA1 := { sA0 with heap := updH sA0.heap 0 { sA0.heap 0 with level := 0 } }
  let sA := loopA fuelA sA1 [(0, 0)] []
  let sB0 := setLevels sA sA.nodes (-1)
  let sB1 := { sB0 with heap := updH sB0.heap 0 { sB0.heap 0 with level := 0 } }
  let sB := loopB fuelB sB1 [(0, 0)] [0]
  loopC sB (maxWordLen sB + 1)

/-- `LatticeTrie.search(word)`: lower-case, walk from the root, and accept
when the final node `is_end_of_word` or has a `"<END>"` edge to the sink. -/
def searchW (s : LatticeTrie) (w : List Char) : Bool :=
  match walkFrom s 0 (lowerStr w) with
  | none => false
  | some n =>
    (s.heap n).is_end_of_word ||
      (match lookupE (s.heap n).children .endL with
       | some t => t = 1
       | none => false)

/-! ## Claim C1 — soundness of minimization (refuted on the code)

Inserting `a`, `ab`, `ba` merges the terminal `a`-node of `ba` into the
already-registered `a`-node (node 2) whose children have meanwhile grown a
`b`-edge, so the walk `b·a·b` reaches an end-of-word node although `bab`
was never inserted. -/

/-- C1: refutation on the code.  After inserting `a`, `ab`, `ba`,
`search("bab")` returns `True` even though `bab` is not among the inserted
words — a root-to-sink walk spells a word that was never inserted, so
minimization is not sound. -/
theorem c1_search_accepts_uninserted_word :
    searchW (insertList LatticeTrie.init [['a'], ['a','b'], ['b','a']]) ['b','a','b'] = true ∧
    ['b','a','b'] ∉ (insertList LatticeTrie.init [['a'], ['a','b'], ['b','a']]).words := by
  decide

/-! ## Claim C2 — completeness of membership (refuted on the code)

A premature merge can rewrite a live edge onto a representative whose
subtree has since diverged, severing the only remaining walk of an
already-inserted word. -/

/-- C2: refutation on the code.  The word `baaaba` is inserted (it is the
seventh word, and is recorded in `self.words`), yet after the eighth
insertion `search("baaaba")` returns `False`: a later merge redirected the
walk of `baaaba` through a representative node that does not carry its
suffix, so no root-to-sink walk spells `baaaba` any more. -/
theorem c2_inserted_word_lost :
    searchW (insertList LatticeTrie.init
        [['b','b','a','a'], ['a'], ['a','b'], ['b'], ['a','b','b','a','a'],
         ['b','a','a','a','b'], ['b','a','a','a','b','a'], ['b','a','a','a']])
      ['b','a','a','a','b','a'] = false ∧
    ['b','a','a','a','b','a'] ∈ (insertList LatticeTrie.init
        [['b','b','a','a'], ['a'], ['a','b'], ['b'], ['a','b','b','a','a'],
         ['b','a','a','a','b'], ['b','a','a','a','b','a'], ['b','a','a','a']]).words := by
  decide

/-! ## Claim C3 — post-minimization canonicity and edge liveness (refuted)

When the discarded node is the first character of the inserted word
(`i == 0`), `insert` skips the parent rewrite entirely, so the root keeps an
edge to the discarded node. -/

/-- C3: refutation on the code.  After inserting `ab` then `b`, the terminal
`b`-node of the second word (node 4) is discarded in favour of the
registered node 3, but its parent — the live root — never has its edge
rewritten (the code only rewrites `path_nodes_stack[i-1]` and only when
`i > 0`): the live root keeps a child edge targeting node 4, which is no
longer in the live node set. -/
theorem c3_live_edge_targets_discarded_node :
    0 ∈ (insertList LatticeTrie.init [['a','b'], ['b']]).nodes ∧
    lookupE ((insertList LatticeTrie.init [['a','b'], ['b']]).heap 0).children
      (.chr 'b') = some 4 ∧
    4 ∉ (insertList LatticeTrie.init [['a','b'], ['b']]).nodes := by
  decide

/-! ## Claim C4 — idempotence of insertion (refuted on the code)

Re-inserting a word re-walks its path; when the walk passes a node whose
current canonical key now collides with a stale registry entry, the second
insertion performs a merge the first one did not, rewriting a live edge. -/

/-- C4: refutation on the code.  From the state reached by inserting
`aa`, `ba`, `a`, inserting `baa` once leaves the live node 2 with its
`a`-edge pointing at node 3; inserting `baa` a second time merges node 3
away and rewrites that edge to point at node 2 itself (a self-loop), so the
set of labeled edges after two insertions differs from the set after one,
although both states have the same live nodes. -/
theorem c4_second_insert_changes_edges :
    2 ∈ (insertW (insertList LatticeTrie.init [['a','a'], ['b','a'], ['a']])
          ['b','a','a']).nodes ∧
    lookupE ((insertW (insertList LatticeTrie.init [['a','a'], ['b','a'], ['a']])
          ['b','a','a']).heap 2).children (.chr 'a') = some 3 ∧
    (insertW (insertW (insertList LatticeTrie.init [['a','a'], ['b','a'], ['a']])
          ['b','a','a']) ['b','a','a']).nodes =
      (insertW (insertList LatticeTrie.init [['a','a'], ['b','a'], ['a']])
          ['b','a','a']).nodes ∧
    lookupE ((insertW (insertW (insertList LatticeTrie.init
          [['a','a'], ['b','a'], ['a']]) ['b','a','a']) ['b','a','a']).heap 2).children
      (.chr 'a') = some 2 := by
  decide

/-! ## Claim C7 — acyclicity (refuted on the code)

The registry entry for the `a`-node of the first word goes stale when that
node gains an `a`-child; the second word's terminal node then matches the
stale key and is merged into its own parent, which rewrites the parent's
edge onto the parent itself. -/

/-- C7: refutation on the code.  After inserting `a` then `aa`, the live
node 2 (the `a`-child of the root) carries the child edge `('a', 2)`: node 2
is reachable from itself by a non-empty child-edge path of length one, so
the edge set is not a DAG. -/
theorem c7_merge_creates_self_loop :
    2 ∈ (insertList LatticeTrie.init [['a'], ['a','a']]).nodes ∧
    lookupE ((insertList LatticeTrie.init [['a'], ['a','a']]).heap 0).children
      (.chr 'a') = some 2 ∧
    lookupE ((insertList LatticeTrie.init [['a'], ['a','a']]).heap 2).children
      (.chr 'a') = some 2 := by
  decide

/-! ## Claim C6 — level correctness (refuted on the code)

After `ab`, `b`, `ba` the node spelled by `b·a` (node 5) is live and
reachable from the root only through the discarded node 4, which the root
still points at.  Stage B never enqueues node 4 (its stale stage-A level
blocks the relaxation) and stage C skips it as a source because it is not
in the live set, so node 5 keeps the sentinel level `-1`. -/

/-- C6: refutation on the code.  After inserting `ab`, `b`, `ba` and running
`_assign_levels` (with ample fuel for both queue loops), the live node 5 is
reachable from the root via the path `root →b→ 4 →a→ 5` of length 2, yet its
level is `-1`, not 2; moreover the edge `4 → 5` violates level monotonicity:
`level(5) = -1 < level(4) + 1 = 2`. -/
theorem c6_levels_wrong_after_assign :
    5 ∈ (assignLevels (insertList LatticeTrie.init [['a','b'], ['b'], ['b','a']])
          1000 1000).nodes ∧
    lookupE ((assignLevels (insertList LatticeTrie.init [['a','b'], ['b'], ['b','a']])
          1000 1000).heap 0).children (.chr 'b') = some 4 ∧
    lookupE ((assignLevels (insertList LatticeTrie.init [['a','b'], ['b'], ['b','a']])
          1000 1000).heap 4).children (.chr 'a') = some 5 ∧
    ((assignLevels (insertList LatticeTrie.init [['a','b'], ['b'], ['b','a']])
          1000 1000).heap 4).level = 1 ∧
    ((assignLevels (insertList LatticeTrie.init [['a','b'], ['b'], ['b','a']])
          1000 1000).heap 5).level = -1 := by
  decide

/-! ## Claim C5 — registry freshness (corrected)

The code has no separate `canonicalize()` pass at all: minimization is
interleaved with `insert`, and `minimized_nodes` is a single dict created
empty in `__init__` and shared by every insertion.  It is never rebuilt and
never seeded with the sink's key; entries only accumulate. -/

/-- C5: counterexample to the claim as stated.  At construction the registry
is empty — it does not contain the sink's key — and after inserting `a` and
then `b` the entry registered during the first insertion is still present
while the second word's minimization runs: nothing is rebuilt fresh between
canonicalization passes. -/
theorem c5_registry_not_fresh :
    LatticeTrie.init.minimized_nodes = [] ∧
    (insertList LatticeTrie.init [['a']]).minimized_nodes =
      [(⟨.chr 'a', true, [(.endL, 1)]⟩, 2)] ∧
    (insertList LatticeTrie.init [['a'], ['b']]).minimized_nodes =
      [(⟨.chr 'a', true, [(.endL, 1)]⟩, 2), (⟨.chr 'b', true, [(.endL, 1)]⟩, 3)] := by
  decide

/-- Phase 1 never touches the registry. -/
theorem phase1_minimized_eq (cs : List Char) (s : LatticeTrie) (cur : Nat) :
    (phase1 s cur cs).1.minimized_nodes = s.minimized_nodes := by
  induction cs generalizing s cur with
  | nil => rfl
  | cons c cs ih =>
    cases h : lookupE (s.heap cur).children (.chr c) with
    | none => simp only [phase1, h]; rw [ih]; rfl
    | some cid => simp only [phase1, h]; rw [ih]; rfl

/-- A phase-2 step either appends one entry to the registry or leaves it
unchanged. -/
theorem phase2Step_registry_grows (s : LatticeTrie) (nid : Nat) (p : Option Nat) :
    s.minimized_nodes <+: (phase2Step s nid p).minimized_nodes := by
  unfold phase2Step
  cases h : regLookup s.minimized_nodes (nodeKey (s.heap nid)) with
  | none => simp only [h]; exact List.prefix_append _ _
  | some canon =>
    by_cases hc : canon = nid
    · simp [h, hc]
    · cases p <;> simp only [h, if_neg hc] <;> exact List.prefix_refl _

/-- Phase 2 only ever appends registry entries. -/
theorem phase2Rev_registry_grows (l : List Nat) (s : LatticeTrie) :
    s.minimized_nodes <+: (phase2Rev s l).minimized_nodes := by
  induction l generalizing s with
  | nil => exact List.prefix_refl _
  | cons x rest ih =>
    exact (phase2Step_registry_grows s x rest.head?).trans (ih _)

/-- C5, amended: the canonical-key registry is created once, empty — never
seeded with the sink's key — when the trie is constructed; there is no
separate canonicalization pass (minimization is interleaved with `insert`),
and the registry persists across insertions: every insertion only appends
entries, so all registry entries left by earlier minimization work are still
present (and consulted) later. -/
theorem c5_registry_persistent_append_only :
    LatticeTrie.init.minimized_nodes = [] ∧
    ∀ (s : LatticeTrie) (w : List Char),
      s.minimized_nodes <+: (insertW s w).minimized_nodes := by
  refine ⟨rfl, fun s w => ?_⟩
  unfold insertW
  have h2 := phase2Rev_registry_grows
    (phase1 s 0 (lowerStr w)).2.2.reverse
    (markTerminal (phase1 s 0 (lowerStr w)).1 (phase1 s 0 (lowerStr w)).2.1 (lowerStr w))
  have h1 : (markTerminal (phase1 s 0 (lowerStr w)).1 (phase1 s 0 (lowerStr w)).2.1
      (lowerStr w)).minimized_nodes = s.minimized_nodes := by
    show (phase1 s 0 (lowerStr w)).1.minimized_nodes = s.minimized_nodes
    exact phase1_minimized_eq _ _ _
  rw [h1] at h2
  exact h2

/-! ## Claim C8 — case-folding contract (confirmed)

Both `insert` and `search` begin with `word.lower()` and use only the
lower-cased form afterwards, so each behaves identically on `w` and on
`w.lower()` (lower-casing is idempotent). -/

/-- `(Char.ofNat n).toNat = n` for a valid code point. -/
theorem toNat_ofNat_valid (n : Nat) (h : Nat.isValidChar n) :
    (Char.ofNat n).toNat = n := by
  simp only [Char.ofNat, dif_pos h, Char.ofNatAux, Char.toNat, UInt32.toNat]
  simp

/-- Python's per-character lower-casing is idempotent. -/
theorem pyLower_idem (c : Char) : pyLower (pyLower c) = pyLower c := by
  unfold pyLower
  by_cases h : 65 ≤ c.toNat ∧ c.toNat ≤ 90
  · have hv : Nat.isValidChar (c.toNat + 32) := Or.inl (by omega)
    have ht : (Char.ofNat (c.toNat + 32)).toNat = c.toNat + 32 :=
      toNat_ofNat_valid _ hv
    rw [if_pos h, if_neg (by rw [ht]; omega)]
  · rw [if_neg h, if_neg h]

/-- `word.lower()` is idempotent. -/
theorem lowerStr_idem (w : List Char) : lowerStr (lowerStr w) = lowerStr w := by
  simp [lowerStr, List.map_map, Function.comp_def, pyLower_idem]

/-- C8: confirmed.  For every word `w` and every state, `insert(w)` performs
exactly the same state mutation as `insert(w.lower())` (the resulting
`LatticeTrie` states are equal), and `search(w)` returns the same result
as `search(w.lower())`. -/
theorem c8_case_folding_contract (s : LatticeTrie) (w : List Char) :
    insertW s w = insertW s (lowerStr w) ∧ searchW s w = searchW s (lowerStr w) := by
  constructor
  · unfold insertW; rw [lowerStr_idem]
  · unfold searchW; rw [lowerStr_idem]

/-! ## Structural invariants of insertion

The following well-formedness predicate collects the graph invariants that
every reachable `LatticeTrie` state satisfies; it is what claims C9 and C10
need.  The root is never the target of any edge, `"<END>"`-labelled edges go
to the sink and nowhere else, character edges go to proper (allocated,
non-root, non-sink) nodes, the registry only holds proper nodes, and an
end-of-word mark always comes with a terminator edge to the sink. -/

/-- Membership in a dict after `d[k] = v`. -/
theorem mem_setEdge {l : List (Label × Nat)} {a : Label} {v : Nat} {p : Label × Nat}
    (h : p ∈ setEdge l a v) : p ∈ l ∨ p = (a, v) := by
  induction l with
  | nil =>
    simp only [setEdge, List.mem_singleton] at h
    exact Or.inr h
  | cons q rest ih =>
    rcases q with ⟨k, w⟩
    by_cases hq : k = a
    · rw [show setEdge ((k, w) :: rest) a v = (a, v) :: rest by
        simp [setEdge, hq]] at h
      rcases List.mem_cons.mp h with h | h
      · exact Or.inr h
      · exact Or.inl (List.mem_cons_of_mem _ h)
    · rw [show setEdge ((k, w) :: rest) a v = (k, w) :: setEdge rest a v by
        simp [setEdge, hq]] at h
      rcases List.mem_cons.mp h with h | h
      · exact Or.inl (h ▸ List.mem_cons_self _ _)
      · rcases ih h with h' | h'
        · exact Or.inl (List.mem_cons_of_mem _ h')
        · exact Or.inr h'

/-- After `d[a] = v`, looking up `a` yields `v`. -/
theorem lookupE_setEdge_self (l : List (Label × Nat)) (a : Label) (v : Nat) :
    lookupE (setEdge l a v) a = some v := by
  induction l with
  | nil => simp [setEdge, lookupE]
  | cons q rest ih =>
    by_cases hq : q.1 = a
    · simp [setEdge, hq, lookupE]
    · simp [setEdge, hq, lookupE, ih]

/-- Appending new entries does not change a successful lookup. -/
theorem lookupE_append_some {l : List (Label × Nat)} {a : Label} {v : Nat}
    (l' : List (Label × Nat)) (h : lookupE l a = some v) :
    lookupE (l ++ l') a = some v := by
  induction l with
  | nil => simp [lookupE] at h
  | cons q rest ih =>
    by_cases hq : q.1 = a
    · simpa [lookupE, hq] using h
    · simp only [lookupE, hq, List.cons_append, if_neg hq] at h ⊢
      exact ih h

/-- Appending a non-`"<END>"` edge does not change the `"<END>"` lookup. -/
theorem lookupE_append_endL (l : List (Label × Nat)) (c : Char) (n : Nat) :
    lookupE (l ++ [(Label.chr c, n)]) .endL = lookupE l .endL := by
  induction l with
  | nil => simp [lookupE]
  | cons q rest ih =>
    by_cases hq : q.1 = Label.endL
    · simp [lookupE, hq]
    · simp [lookupE, hq, ih]

/-- Membership after the parent-edge rewrite: each entry either was already
present or is the rewritten first entry (same label, new target). -/
theorem mem_retarget {l : List (Label × Nat)} {old new : Nat} {p : Label × Nat}
    (h : p ∈ retarget l old new) :
    p ∈ l ∨ ∃ k, (k, old) ∈ l ∧ p = (k, new) := by
  induction l with
  | nil => simp [retarget] at h
  | cons q rest ih =>
    rcases q with ⟨k, w⟩
    by_cases hq : w = old
    · rw [show retarget ((k, w) :: rest) old new = (k, new) :: rest by
        simp [retarget, hq]] at h
      rcases List.mem_cons.mp h with h | h
      · exact Or.inr ⟨k, ⟨by rw [hq] at *; exact List.mem_cons_self _ _, h⟩⟩
      · exact Or.inl (List.mem_cons_of_mem _ h)
    · rw [show retarget ((k, w) :: rest) old new = (k, w) :: retarget rest old new by
        simp [retarget, hq]] at h
      rcases List.mem_cons.mp h with h | h
      · exact Or.inl (h ▸ List.mem_cons_self _ _)
      · rcases ih h with h' | ⟨k', hk, hp⟩
        · exact Or.inl (List.mem_cons_of_mem _ h')
        · exact Or.inr ⟨k', List.mem_cons_of_mem _ hk, hp⟩

/-- The parent-edge rewrite of a node whose `"<END>"` edges all point at the
sink preserves the `"<END>"` lookup, provided the rewritten target is not
the sink. -/
theorem lookupE_retarget_endL {l : List (Label × Nat)} {old new : Nat}
    (hend : ∀ p ∈ l, p.1 = Label.endL → p.2 = 1) (hold : old ≠ 1) :
    lookupE (retarget l old new) .endL = lookupE l .endL := by
  induction l with
  | nil => simp [retarget]
  | cons q rest ih =>
    by_cases hq : q.2 = old
    · have hq1 : q.1 ≠ Label.endL := by
        intro he
        exact hold (hq ▸ hend q (List.mem_cons_self _ _) he)
      rw [show retarget (q :: rest) old new = (q.1, new) :: rest by
        simp [retarget, hq]]
      simp [lookupE, hq1]
    · rw [show retarget (q :: rest) old new = q :: retarget rest old new by
        simp [retarget, hq]]
      by_cases hq1 : q.1 = Label.endL
      · simp [lookupE, hq1]
      · simp only [lookupE, if_neg hq1]
        exact ih fun p hp he => hend p (List.mem_cons_of_mem _ hp) he

/-- A successful registry lookup is a registry entry. -/
theorem regLookup_mem {l : List (NKey × Nat)} {k : NKey} {v : Nat}
    (h : regLookup l k = some v) : (k, v) ∈ l := by
  induction l with
  | nil => simp [regLookup] at h
  | cons q rest ih =>
    by_cases hq : q.1 = k
    · simp only [regLookup, if_pos hq] at h
      rcases q with ⟨qk, qv⟩
      obtain rfl : qv = v := by simpa using h
      simp_all
    · simp only [regLookup, if_neg hq] at h
      exact List.mem_cons_of_mem _ (ih h)

/-- Membership in the live list after a `set.add`. -/
theorem mem_addNode {l : List Nat} {n x : Nat} (h : x ∈ l) : x ∈ addNode l n := by
  unfold addNode
  split
  · exact h
  · exact List.mem_append_left _ h

/-- Unfolding equation for heap updates. -/
theorem updH_get (h : Nat → Node) (j : Nat) (n : Node) (i : Nat) :
    updH h j n i = if i = j then n else h i := rfl

/-- A successful dict lookup is a dict entry. -/
theorem lookupE_mem {l : List (Label × Nat)} {a : Label} {v : Nat}
    (h : lookupE l a = some v) : (a, v) ∈ l := by
  induction l with
  | nil => simp [lookupE] at h
  | cons q rest ih =>
    rcases q with ⟨k, w⟩
    by_cases hq : k = a
    · simp only [lookupE, if_pos hq] at h
      obtain rfl : w = v := by simpa using h
      subst hq; exact List.mem_cons_self _ _
    · simp only [lookupE, if_neg hq] at h
      exact List.mem_cons_of_mem _ (ih h)

/-- Well-formedness of a `LatticeTrie` state: satisfied by the initial state
and preserved by every `insert`.  Node `0` is the root and node `1` the
sink; ids `2, ..., nextId - 1` are the allocated character nodes. -/
structure WF (s : LatticeTrie) : Prop where
  next2 : 2 ≤ s.nextId
  rootLive : 0 ∈ s.nodes
  sinkLive : 1 ∈ s.nodes
  sinkChildren : (s.heap 1).children = []
  edgeEnd : ∀ i : Nat, ∀ p ∈ (s.heap i).children, p.1 = Label.endL → p.2 = 1
  edgeChr : ∀ i : Nat, ∀ p ∈ (s.heap i).children,
    p.1 ≠ Label.endL → 2 ≤ p.2 ∧ p.2 < s.nextId
  regRange : ∀ e ∈ s.minimized_nodes, 2 ≤ e.2 ∧ e.2 < s.nextId
  endMark : ∀ i : Nat, (s.heap i).is_end_of_word = true →
    i = 1 ∨ lookupE (s.heap i).children .endL = some 1
  regFlag : ∀ e ∈ s.minimized_nodes, e.1.flag = true →
    lookupE (s.heap e.2).children .endL = some 1

/-- The initial state is well-formed. -/
theorem wf_init : WF LatticeTrie.init := by
  refine ⟨le_refl 2, by simp [LatticeTrie.init], by simp [LatticeTrie.init],
    by simp [LatticeTrie.init, mkNode], ?_, ?_, by simp [LatticeTrie.init], ?_,
    by simp [LatticeTrie.init]⟩
  · intro i p hp
    revert hp
    by_cases h : i = 1 <;> simp [LatticeTrie.init, mkNode, h]
  · intro i p hp
    revert hp
    by_cases h : i = 1 <;> simp [LatticeTrie.init, mkNode, h]
  · intro i hi
    by_cases h : i = 1
    · exact Or.inl h
    · exfalso
      simp [LatticeTrie.init, mkNode, h] at hi

/-- Facts about the root and the allocator preserved by the sub-steps of an
insertion (used for the empty-word policy): the allocator only grows, and the
root's end-of-word mark and terminator edge are untouched. -/
def Pres (s t : LatticeTrie) : Prop :=
  s.nextId ≤ t.nextId ∧
  (t.heap 0).is_end_of_word = (s.heap 0).is_end_of_word ∧
  lookupE (t.heap 0).children .endL = lookupE (s.heap 0).children .endL

theorem pres_refl (s : LatticeTrie) : Pres s s := ⟨le_refl _, rfl, rfl⟩

theorem pres_trans {s t u : LatticeTrie} (h1 : Pres s t) (h2 : Pres t u) :
    Pres s u :=
  ⟨h1.1.trans h2.1, h2.2.1.trans h1.2.1, h2.2.2.trans h1.2.2⟩

/-- `count += 1` changes no field that well-formedness depends on. -/
theorem bumpCount_wf {s : LatticeTrie} (child : Nat) (hwf : WF s) :
    WF (bumpCount s child) := by
  have hch : ∀ i, ((bumpCount s child).heap i).children = (s.heap i).children := by
    intro i
    simp only [bumpCount, updH_get]
    split
    · next h => rw [h]
    · rfl
  have hie : ∀ i, ((bumpCount s child).heap i).is_end_of_word
      = (s.heap i).is_end_of_word := by
    intro i
    simp only [bumpCount, updH_get]
    split
    · next h => rw [h]
    · rfl
  refine ⟨hwf.next2, hwf.rootLive, hwf.sinkLive, ?_, ?_, ?_, hwf.regRange, ?_, ?_⟩
  · rw [hch]; exact hwf.sinkChildren
  · intro i p hp; rw [hch] at hp; exact hwf.edgeEnd i p hp
  · intro i p hp; rw [hch] at hp; exact hwf.edgeChr i p hp
  · intro i hi; rw [hie] at hi; rw [hch]; exact hwf.endMark i hi
  · intro e he hf; rw [hch]; exact hwf.regFlag e he hf

theorem bumpCount_pres (s : LatticeTrie) (child : Nat) :
    Pres s (bumpCount s child) := by
  have hch : ∀ i, ((bumpCount s child).heap i).children = (s.heap i).children := by
    intro i
    simp only [bumpCount, updH_get]
    split
    · next h => rw [h]
    · rfl
  have hie : ∀ i, ((bumpCount s child).heap i).is_end_of_word
      = (s.heap i).is_end_of_word := by
    intro i
    simp only [bumpCount, updH_get]
    split
    · next h => rw [h]
    · rfl
  exact ⟨le_refl _, hie 0, by rw [hch]⟩

/-- Creating a fresh child preserves well-formedness. -/
theorem addChild_wf {s : LatticeTrie} {cur : Nat} (c : Char) (hwf : WF s)
    (h1 : cur ≠ 1) (h2 : cur < s.nextId) : WF (addChild s cur c) := by
  have hne : cur ≠ s.nextId := Nat.ne_of_lt h2
  have hget : ∀ i, (addChild s cur c).heap i =
      if i = cur then
        { s.heap cur with
          children := (s.heap cur).children ++ [(.chr c, s.nextId)] }
      else if i = s.nextId then mkNode (.chr c) else s.heap i := by
    intro i
    simp only [addChild, updH_get]
  refine ⟨?_, ?_, ?_, ?_, ?_, ?_, ?_, ?_, ?_⟩
  · exact le_trans hwf.next2 (Nat.le_succ _)
  · exact mem_addNode hwf.rootLive
  · exact mem_addNode hwf.sinkLive
  · rw [hget]
    rw [if_neg (fun h => h1 h.symm), if_neg (by have := hwf.next2; omega)]
    exact hwf.sinkChildren
  · intro i p hp
    rw [hget] at hp
    by_cases hc : i = cur
    · rw [if_pos hc] at hp
      rcases List.mem_append.mp hp with hp | hp
      · exact hwf.edgeEnd cur p hp
      · intro he
        exfalso
        rw [List.mem_singleton.mp hp] at he
        exact Label.noConfusion he
    · rw [if_neg hc] at hp
      by_cases hn : i = s.nextId
      · rw [if_pos hn] at hp
        simp [mkNode] at hp
      · rw [if_neg hn] at hp
        exact hwf.edgeEnd i p hp
  · intro i p hp hl
    rw [hget] at hp
    show 2 ≤ p.2 ∧ p.2 < s.nextId + 1
    by_cases hc : i = cur
    · rw [if_pos hc] at hp
      rcases List.mem_append.mp hp with hp | hp
      · have := hwf.edgeChr cur p hp hl
        omega
      · rw [List.mem_singleton.mp hp]
        have := hwf.next2
        constructor
        · simpa using this
        · simp
    · rw [if_neg hc] at hp
      by_cases hn : i = s.nextId
      · rw [if_pos hn] at hp
        simp [mkNode] at hp
      · rw [if_neg hn] at hp
        have := hwf.edgeChr i p hp hl
        omega
  · intro e he
    have := hwf.regRange e he
    show 2 ≤ e.2 ∧ e.2 < s.nextId + 1
    omega
  · intro i hi
    rw [hget] at hi ⊢
    by_cases hc : i = cur
    · rw [if_pos hc] at hi ⊢
      right
      rcases hwf.endMark cur hi with h | h
      · exact absurd h h1
      · exact lookupE_append_some _ h
    · rw [if_neg hc] at hi ⊢
      by_cases hn : i = s.nextId
      · rw [if_pos hn] at hi
        simp [mkNode] at hi
      · rw [if_neg hn] at hi ⊢
        exact hwf.endMark i hi
  · intro e he hf
    rw [hget]
    have hr := hwf.regRange e he
    by_cases hc : e.2 = cur
    · rw [if_pos hc]
      have := hwf.regFlag e he hf
      rw [hc] at this
      exact lookupE_append_some _ this
    · rw [if_neg hc, if_neg (by omega)]
      exact hwf.regFlag e he hf

theorem addChild_pres (s : LatticeTrie) (cur : Nat) (c : Char) (h2 : 2 ≤ s.nextId) :
    Pres s (addChild s cur c) := by
  have hget : ∀ i : Nat, (addChild s cur c).heap i =
      if i = cur then
        { s.heap cur with
          children := (s.heap cur).children ++ [(.chr c, s.nextId)] }
      else if i = s.nextId then mkNode (.chr c) else s.heap i := by
    intro i
    simp only [addChild, updH_get]
  refine ⟨Nat.le_succ _, ?_, ?_⟩
  · rw [hget]
    by_cases hc : (0 : Nat) = cur
    · subst hc
      rw [if_pos rfl]
    · rw [if_neg hc, if_neg (by omega)]
  · rw [hget]
    by_cases hc : (0 : Nat) = cur
    · subst hc
      rw [if_pos rfl]
      exact lookupE_append_endL _ _ _
    · rw [if_neg hc, if_neg (by omega)]

/-- Phase-1 well-formedness: walking (and extending) the trie from a proper
node preserves well-formedness and the root-related facts, every stack node
is a proper allocated node, and the final node is the start node (empty
word) or the last stack node. -/
theorem phase1_spec (cs : List Char) :
    ∀ (s : LatticeTrie) (cur : Nat), WF s → cur ≠ 1 → cur < s.nextId →
    WF (phase1 s cur cs).1 ∧ Pres s (phase1 s cur cs).1 ∧
    (∀ x ∈ (phase1 s cur cs).2.2, 2 ≤ x ∧ x < (phase1 s cur cs).1.nextId) ∧
    (cs = [] → (phase1 s cur cs).2.1 = cur) ∧
    (cs ≠ [] → (phase1 s cur cs).2.1 ∈ (phase1 s cur cs).2.2) := by
  induction cs with
  | nil =>
    intro s cur hwf h1 h2
    exact ⟨hwf, pres_refl s, by simp [phase1], fun _ => rfl, fun h => absurd rfl h⟩
  | cons c cs ih =>
    intro s cur hwf h1 h2
    cases hlk : lookupE (s.heap cur).children (.chr c) with
    | some cid =>
      have hcid : 2 ≤ cid ∧ cid < s.nextId :=
        hwf.edgeChr cur (.chr c, cid) (lookupE_mem hlk) (by simp)
      have hwf2 : WF (bumpCount s cid) := bumpCount_wf cid hwf
      have hrec := ih (bumpCount s cid) cid hwf2 (by omega)
        (show cid < (bumpCount s cid).nextId from hcid.2)
      obtain ⟨ra, rb, rc, _, _⟩ := hrec
      have hpres : Pres s (phase1 (bumpCount s cid) cid cs).1 :=
        pres_trans (bumpCount_pres s cid) rb
      simp only [phase1, hlk]
      refine ⟨ra, hpres, ?_, by simp, fun _ => ?_⟩
      · intro x hx
        rcases List.mem_cons.mp hx with hx | hx
        · rw [hx]
          exact ⟨hcid.1, lt_of_lt_of_le hcid.2 rb.1⟩
        · exact rc x hx
      · cases hcs : cs with
        | nil =>
          subst hcs
          simp [phase1]
        | cons d ds =>
          subst hcs
          refine List.mem_cons_of_mem _ ?_
          exact (ih (bumpCount s cid) cid hwf2 (by omega) hcid.2).2.2.2.2 (by simp)
    | none =>
      have hnid2 : 2 ≤ s.nextId := hwf.next2
      have hwfA : WF (addChild s cur c) := addChild_wf c hwf h1 h2
      have hwf2 : WF (bumpCount (addChild s cur c) s.nextId) :=
        bumpCount_wf _ hwfA
      have hlt : s.nextId < (bumpCount (addChild s cur c) s.nextId).nextId := by
        show s.nextId < s.nextId + 1
        omega
      have hrec := ih (bumpCount (addChild s cur c) s.nextId) s.nextId hwf2
        (by omega) hlt
      obtain ⟨ra, rb, rc, _, _⟩ := hrec
      have hpres : Pres s (phase1 (bumpCount (addChild s cur c) s.nextId) s.nextId cs).1 :=
        pres_trans (pres_trans (addChild_pres s cur c hnid2)
          (bumpCount_pres _ s.nextId)) rb
      simp only [phase1, hlk]
      refine ⟨ra, hpres, ?_, by simp, fun _ => ?_⟩
      · intro x hx
        rcases List.mem_cons.mp hx with hx | hx
        · rw [hx]
          exact ⟨hnid2, lt_of_lt_of_le hlt rb.1⟩
        · exact rc x hx
      · cases hcs : cs with
        | nil =>
          subst hcs
          simp [phase1]
        | cons d ds =>
          subst hcs
          refine List.mem_cons_of_mem _ ?_
          exact (ih (bumpCount (addChild s cur c) s.nextId) s.nextId hwf2
            (by omega) hlt).2.2.2.2 (by simp)

/-- The terminal bookkeeping preserves well-formedness (for any final node
other than the sink) and, when the final node is not the root, all the
root-related facts. -/
theorem markTerminal_wf {s : LatticeTrie} {last : Nat} (wl : List Char)
    (hwf : WF s) (h1 : last ≠ 1) (_h2 : last < s.nextId) :
    WF (markTerminal s last wl) ∧
    (markTerminal s last wl).nextId = s.nextId ∧
    (last ≠ 0 → (markTerminal s last wl).heap 0 = s.heap 0) := by
  have hget : ∀ i, (markTerminal s last wl).heap i =
      if i = last then
        { s.heap last with
          children := setEdge (s.heap last).children .endL 1
        , is_end_of_word := true
        , words_ending_here := (s.heap last).words_ending_here ++ [wl] }
      else s.heap i := by
    intro i
    simp only [markTerminal, updH_get]
  refine ⟨⟨hwf.next2, hwf.rootLive, hwf.sinkLive, ?_, ?_, ?_, hwf.regRange, ?_, ?_⟩,
    rfl, ?_⟩
  · rw [hget, if_neg (fun h => h1 h.symm)]
    exact hwf.sinkChildren
  · intro i p hp
    rw [hget] at hp
    by_cases hc : i = last
    · rw [if_pos hc] at hp
      rcases mem_setEdge hp with hp | hp
      · exact hwf.edgeEnd last p hp
      · intro _; rw [hp]
    · rw [if_neg hc] at hp
      exact hwf.edgeEnd i p hp
  · intro i p hp hl
    rw [hget] at hp
    by_cases hc : i = last
    · rw [if_pos hc] at hp
      rcases mem_setEdge hp with hp | hp
      · exact hwf.edgeChr last p hp hl
      · exfalso; rw [hp] at hl; exact hl rfl
    · rw [if_neg hc] at hp
      exact hwf.edgeChr i p hp hl
  · intro i hi
    rw [hget] at hi ⊢
    by_cases hc : i = last
    · rw [if_pos hc]
      right
      exact lookupE_setEdge_self _ _ _
    · rw [if_neg hc] at hi ⊢
      exact hwf.endMark i hi
  · intro e he hf
    rw [hget]
    by_cases hc : e.2 = last
    · rw [if_pos hc]
      exact lookupE_setEdge_self _ _ _
    · rw [if_neg hc]
      exact hwf.regFlag e he hf
  · intro h0
    rw [hget, if_neg (fun h => h0 h.symm)]

/-- The property merge of phase 2 preserves well-formedness when the node
being discarded and its representative come from the registry entry that was
just looked up. -/
theorem phase2Step_wf {s : LatticeTrie} (nid : Nat) (parent : Option Nat)
    (hwf : WF s) (hn1 : 2 ≤ nid) (hn2 : nid < s.nextId)
    (hp : ∀ q ∈ parent, 2 ≤ q ∧ q < s.nextId) :
    WF (phase2Step s nid parent) ∧
    (phase2Step s nid parent).nextId = s.nextId ∧
    (phase2Step s nid parent).heap 0 = s.heap 0 := by
  cases hreg : regLookup s.minimized_nodes (nodeKey (s.heap nid)) with
  | none =>
    simp only [phase2Step, hreg]
    refine ⟨⟨hwf.next2, hwf.rootLive, hwf.sinkLive, hwf.sinkChildren,
      hwf.edgeEnd, hwf.edgeChr, ?_, hwf.endMark, ?_⟩, by trivial, by trivial⟩
    · intro e he
      rcases List.mem_append.mp he with he | he
      · exact hwf.regRange e he
      · rw [List.mem_singleton.mp he]
        exact ⟨hn1, hn2⟩
    · intro e he hf
      rcases List.mem_append.mp he with he | he
      · exact hwf.regFlag e he hf
      · rw [List.mem_singleton.mp he] at hf ⊢
        have : (s.heap nid).is_end_of_word = true := hf
        rcases hwf.endMark nid this with h | h
        · omega
        · exact h
  | some canon =>
    simp only [phase2Step, hreg]
    by_cases hc : canon = nid
    · rw [if_pos hc]
      exact ⟨hwf, rfl, rfl⟩
    · rw [if_neg hc]
      have hcm : (nodeKey (s.heap nid), canon) ∈ s.minimized_nodes :=
        regLookup_mem hreg
      have hcr : 2 ≤ canon ∧ canon < s.nextId := hwf.regRange _ hcm
      -- facts about the merged state
      have hmget : ∀ i, ((mergeProps s nid canon).heap i).children
          = (s.heap i).children := by
        intro i
        simp only [mergeProps, updH_get]
        split
        · next h => rw [h]
        · rfl
      have hmie : ∀ i, i ≠ canon →
          ((mergeProps s nid canon).heap i).is_end_of_word
            = (s.heap i).is_end_of_word := by
        intro i hi
        simp only [mergeProps, updH_get, if_neg hi]
      have hwfm : WF (mergeProps s nid canon) := by
        refine ⟨hwf.next2, hwf.rootLive, hwf.sinkLive, ?_, ?_, ?_, hwf.regRange,
          ?_, ?_⟩
        · rw [hmget]; exact hwf.sinkChildren
        · intro i p hp'; rw [hmget] at hp'; exact hwf.edgeEnd i p hp'
        · intro i p hp' hl; rw [hmget] at hp'; exact hwf.edgeChr i p hp' hl
        · intro i hi
          rw [hmget]
          by_cases hic : i = canon
          · right
            rw [hic]
            by_cases hnd : (s.heap nid).is_end_of_word = true
            · have hflag : (nodeKey (s.heap nid)).flag = true := hnd
              exact hwf.regFlag _ hcm hflag
            · have hnd' : (s.heap nid).is_end_of_word = false := by
                simpa using hnd
              have hmc : ((mergeProps s nid canon).heap canon).is_end_of_word
                  = (s.heap canon).is_end_of_word := by
                simp only [mergeProps, updH_get, if_pos rfl, hnd']
                rfl
              rw [hic, hmc] at hi
              rcases hwf.endMark canon hi with h | h
              · omega
              · exact h
          · rw [hmie i hic] at hi
            exact hwf.endMark i hi
        · intro e he hf
          rw [hmget]
          exact hwf.regFlag e he hf
      -- facts about the parent-rewritten state
      have hrw :
          WF (rewriteParent (mergeProps s nid canon) nid canon parent) ∧
          (rewriteParent (mergeProps s nid canon) nid canon parent).nextId
            = s.nextId ∧
          (rewriteParent (mergeProps s nid canon) nid canon parent).heap 0
            = (mergeProps s nid canon).heap 0 ∧
          (rewriteParent (mergeProps s nid canon) nid canon parent).nodes
            = s.nodes := by
        cases parent with
        | none => exact ⟨hwfm, rfl, rfl, rfl⟩
        | some p =>
          have hpr : 2 ≤ p ∧ p < s.nextId := hp p rfl
          have hgget : ∀ i, (rewriteParent (mergeProps s nid canon) nid canon
              (some p)).heap i =
              if i = p then
                { (mergeProps s nid canon).heap p with
                  children := retarget ((mergeProps s nid canon).heap p).children
                    nid canon }
              else (mergeProps s nid canon).heap i := by
            intro i
            simp only [rewriteParent, updH_get]
          refine ⟨⟨hwfm.next2, hwfm.rootLive, hwfm.sinkLive, ?_, ?_, ?_,
            hwfm.regRange, ?_, ?_⟩, rfl, ?_, rfl⟩
          · rw [hgget, if_neg (by omega)]
            exact hwfm.sinkChildren
          · intro i q hq
            rw [hgget] at hq
            by_cases hip : i = p
            · rw [if_pos hip] at hq
              rcases mem_retarget hq with hq | ⟨k, hk, hq⟩
              · exact hwfm.edgeEnd p q hq
              · intro hql
                exfalso
                rw [hq] at hql
                have := hwfm.edgeEnd p (k, nid) hk hql
                omega
            · rw [if_neg hip] at hq
              exact hwfm.edgeEnd i q hq
          · intro i q hq hl
            rw [hgget] at hq
            by_cases hip : i = p
            · rw [if_pos hip] at hq
              rcases mem_retarget hq with hq | ⟨k, hk, hq⟩
              · exact hwfm.edgeChr p q hq hl
              · rw [hq]
                exact hcr
            · rw [if_neg hip] at hq
              exact hwfm.edgeChr i q hq hl
          · intro i hi
            rw [hgget] at hi ⊢
            by_cases hip : i = p
            · rw [if_pos hip] at hi ⊢
              have hi' : ((mergeProps s nid canon).heap p).is_end_of_word
                  = true := hi
              rcases hwfm.endMark p hi' with h | h
              · omega
              · right
                rw [show (({ (mergeProps s nid canon).heap p with
                    children := retarget ((mergeProps s nid canon).heap p).children
                      nid canon } : Node)).children
                    = retarget ((mergeProps s nid canon).heap p).children nid canon
                    from rfl]
                rw [lookupE_retarget_endL
                  (fun q hq hql => hwfm.edgeEnd p q hq hql) (by omega)]
                exact h
            · rw [if_neg hip] at hi ⊢
              exact hwfm.endMark i hi
          · intro e he hf
            rw [hgget]
            by_cases hip : e.2 = p
            · rw [if_pos hip]
              have := hwfm.regFlag e he hf
              rw [hip] at this
              show lookupE (retarget ((mergeProps s nid canon).heap p).children
                nid canon) .endL = some 1
              rw [lookupE_retarget_endL
                (fun q hq hql => hwfm.edgeEnd p q hq hql) (by omega)]
              exact this
            · rw [if_neg hip]
              exact hwfm.regFlag e he hf
          · rw [hgget, if_neg (by omega)]
      obtain ⟨hwfr, hnx, hh0, hnodes⟩ := hrw
      refine ⟨⟨hwfr.next2, ?_, ?_, hwfr.sinkChildren, hwfr.edgeEnd,
        hwfr.edgeChr, hwfr.regRange, hwfr.endMark, hwfr.regFlag⟩, hnx, ?_⟩
      · exact (List.mem_erase_of_ne (by omega)).mpr hwfr.rootLive
      · exact (List.mem_erase_of_ne (by omega)).mpr hwfr.sinkLive
      · show (rewriteParent (mergeProps s nid canon) nid canon parent).heap 0
          = s.heap 0
        rw [hh0]
        simp only [mergeProps, updH_get, if_neg (by omega : ¬(0 : Nat) = canon)]

/-- Phase 2 over the whole (reversed) stack preserves well-formedness, the
allocator, and the root's heap entry, provided every stack node is a proper
allocated node. -/
theorem phase2Rev_wf (l : List Nat) :
    ∀ {s : LatticeTrie}, WF s → (∀ x ∈ l, 2 ≤ x ∧ x < s.nextId) →
    WF (phase2Rev s l) ∧ (phase2Rev s l).nextId = s.nextId ∧
    (phase2Rev s l).heap 0 = s.heap 0 := by
  induction l with
  | nil => intro s hwf _; exact ⟨hwf, rfl, rfl⟩
  | cons x rest ih =>
    intro s hwf hl
    have hx : 2 ≤ x ∧ x < s.nextId := hl x (List.mem_cons_self _ _)
    have hpar : ∀ q ∈ rest.head?, 2 ≤ q ∧ q < s.nextId := by
      intro q hq
      cases hr : rest with
      | nil => rw [hr] at hq; simp at hq
      | cons y ys =>
        rw [hr] at hq
        have hyq : y = q := by simpa using hq
        rw [← hyq]
        exact hl y (by rw [hr]; exact List.mem_cons_of_mem _ (List.mem_cons_self _ _))
    obtain ⟨hwf1, hnx1, hh01⟩ := phase2Step_wf x rest.head? hwf hx.1 hx.2 hpar
    have hrest : ∀ y ∈ rest, 2 ≤ y ∧ y < (phase2Step s x rest.head?).nextId := by
      intro y hy
      rw [hnx1]
      exact hl y (List.mem_cons_of_mem _ hy)
    obtain ⟨hwf2, hnx2, hh02⟩ := ih hwf1 hrest
    refine ⟨?_, ?_, ?_⟩ <;> simp only [phase2Rev]
    · exact hwf2
    · rw [hnx2, hnx1]
    · rw [hh02, hh01]

/-- `insert` preserves well-formedness. -/
theorem insertW_wf {s : LatticeTrie} (w : List Char) (hwf : WF s) :
    WF (insertW s w) := by
  unfold insertW
  have h0lt : (0 : Nat) < s.nextId := by have := hwf.next2; omega
  obtain ⟨hwf1, hpres1, hstack, hlast_nil, hlast_cons⟩ :=
    phase1_spec (lowerStr w) s 0 hwf (by omega) h0lt
  have hlast : (phase1 s 0 (lowerStr w)).2.1 ≠ 1 ∧
      (phase1 s 0 (lowerStr w)).2.1 < (phase1 s 0 (lowerStr w)).1.nextId := by
    by_cases hw : lowerStr w = []
    · rw [hlast_nil hw]
      have := hwf1.next2
      omega
    · have hmem := hlast_cons hw
      have := hstack _ hmem
      omega
  obtain ⟨hwf2, hnx2, _⟩ :=
    markTerminal_wf (lowerStr w) hwf1 hlast.1 hlast.2
  have hstack2 : ∀ x ∈ (phase1 s 0 (lowerStr w)).2.2.reverse,
      2 ≤ x ∧ x < (markTerminal (phase1 s 0 (lowerStr w)).1
        (phase1 s 0 (lowerStr w)).2.1 (lowerStr w)).nextId := by
    intro x hx
    rw [hnx2]
    exact hstack x (List.mem_reverse.mp hx)
  exact (phase2Rev_wf _ hwf2 hstack2).1

/-- Every state built by a sequence of insertions is well-formed. -/
theorem insertList_wf (ws : List (List Char)) :
    WF (insertList LatticeTrie.init ws) := by
  suffices h : ∀ (s : LatticeTrie), WF s → WF (insertList s ws) from
    h LatticeTrie.init wf_init
  induction ws with
  | nil => intro s hwf; exact hwf
  | cons w ws ih =>
    intro s hwf
    exact ih _ (insertW_wf w hwf)

/-! ## Claim C9 — sink invariant (confirmed)

The sink (node `1`) is created at construction, is never walked (no
character-labelled edge ever targets it), never registered, never merged and
never discarded; every `"<END>"` edge anywhere in the heap targets it, and
every end-of-word node carries such an edge. -/

/-- C9: confirmed.  The sink node `1` is created at construction with the
`"END"` tag and no children; after every sequence of insertions the sink is
still in the live node set, still has no outgoing child edges, is never
chosen as a merge representative (no registry entry maps to it), every
`"<END>"`-labelled edge of every node targets it, and every node marked
end-of-word links to it via the `"<END>"` edge. -/
theorem c9_sink_invariant :
    (LatticeTrie.init.heap 1).char = NChar.endC ∧
    (LatticeTrie.init.heap 1).is_end_of_word = true ∧
    ∀ ws : List (List Char),
      1 ∈ (insertList LatticeTrie.init ws).nodes ∧
      ((insertList LatticeTrie.init ws).heap 1).children = [] ∧
      (∀ e ∈ (insertList LatticeTrie.init ws).minimized_nodes, e.2 ≠ 1) ∧
      (∀ i : Nat, ∀ p ∈ ((insertList LatticeTrie.init ws).heap i).children,
        p.1 = Label.endL → p.2 = 1) ∧
      (∀ i : Nat,
        ((insertList LatticeTrie.init ws).heap i).is_end_of_word = true →
        i = 1 ∨ lookupE ((insertList LatticeTrie.init ws).heap i).children .endL
          = some 1) := by
  refine ⟨rfl, rfl, fun ws => ?_⟩
  have hwf := insertList_wf ws
  refine ⟨hwf.sinkLive, hwf.sinkChildren, ?_, hwf.edgeEnd, hwf.endMark⟩
  intro e he
  have := hwf.regRange e he
  omega

/-- Witness for C9 at a concrete insertion sequence. -/
theorem c9_sink_invariant_witness :
    1 ∈ (insertList LatticeTrie.init [['a']]).nodes ∧
    lookupE ((insertList LatticeTrie.init [['a']]).heap 2).children .endL
      = some 1 :=
  ⟨(c9_sink_invariant.2.2 [['a']]).1,
   ((c9_sink_invariant.2.2 [['a']]).2.2.2.2 2 (by decide)).resolve_left
     (by decide)⟩

/-! ## Claim C10 — empty-word policy (confirmed)

`insert("")` walks no characters, so the terminal node is the root itself:
the terminator edge is attached to the root and the root is marked
end-of-word, after which `search("")` succeeds.  Conversely, no insertion of
a nonempty word ever touches the root's end-of-word mark or gives it a
terminator edge (the root is never the target of any edge), so before an
empty-word insertion `search("")` is `False`. -/

/-- Insertion of a word with a nonempty lower-cased form leaves the root's
end-of-word mark and terminator lookup unchanged. -/
theorem insertW_root_preserved {s : LatticeTrie} (w : List Char) (hwf : WF s)
    (hw : w ≠ []) :
    ((insertW s w).heap 0).is_end_of_word = (s.heap 0).is_end_of_word ∧
    lookupE ((insertW s w).heap 0).children .endL
      = lookupE (s.heap 0).children .endL := by
  unfold insertW
  have h0lt : (0 : Nat) < s.nextId := by have := hwf.next2; omega
  obtain ⟨hwf1, hpres1, hstack, _, hlast_cons⟩ :=
    phase1_spec (lowerStr w) s 0 hwf (by omega) h0lt
  have hwne : lowerStr w ≠ [] := by
    simpa [lowerStr] using hw
  have hmem := hlast_cons hwne
  have hlastr := hstack _ hmem
  obtain ⟨hwf2, hnx2, hroot2⟩ :=
    markTerminal_wf (lowerStr w) hwf1 (by omega) hlastr.2
  have hroot2' := hroot2 (by omega)
  have hstack2 : ∀ x ∈ (phase1 s 0 (lowerStr w)).2.2.reverse,
      2 ≤ x ∧ x < (markTerminal (phase1 s 0 (lowerStr w)).1
        (phase1 s 0 (lowerStr w)).2.1 (lowerStr w)).nextId := by
    intro x hx
    rw [hnx2]
    exact hstack x (List.mem_reverse.mp hx)
  obtain ⟨_, _, hroot3⟩ := phase2Rev_wf _ hwf2 hstack2
  rw [hroot3, hroot2']
  exact ⟨hpres1.2.1, hpres1.2.2⟩

/-- C10: confirmed.  `insert("")` is accepted, attaches the terminator edge
directly from the root to the sink and marks the root end-of-word, after
which `search("")` returns `True`; and for any sequence of insertions of
nonempty words from the initial state, `search("")` returns `False`. -/
theorem c10_empty_word_policy :
    (∀ s : LatticeTrie,
      ((insertW s []).heap 0).is_end_of_word = true ∧
      lookupE ((insertW s []).heap 0).children .endL = some 1 ∧
      searchW (insertW s []) [] = true) ∧
    (∀ ws : List (List Char), (∀ w ∈ ws, w ≠ []) →
      searchW (insertList LatticeTrie.init ws) [] = false) := by
  constructor
  · intro s
    refine ⟨rfl, ?_, ?_⟩
    · exact lookupE_setEdge_self _ _ _
    · rfl
  · intro ws hws
    have key : ∀ (l : List (List Char)) (s : LatticeTrie), WF s →
        (∀ w ∈ l, w ≠ []) →
        (s.heap 0).is_end_of_word = false →
        lookupE (s.heap 0).children .endL = none →
        ((insertList s l).heap 0).is_end_of_word = false ∧
        lookupE ((insertList s l).heap 0).children .endL = none := by
      intro l
      induction l with
      | nil => intro s _ _ h1 h2; exact ⟨h1, h2⟩
      | cons w l ih =>
        intro s hwf hne h1 h2
        have hw : w ≠ [] := hne w (List.mem_cons_self _ _)
        obtain ⟨e1, e2⟩ := insertW_root_preserved w hwf hw
        exact ih _ (insertW_wf w hwf)
          (fun v hv => hne v (List.mem_cons_of_mem _ hv))
          (by rw [e1, h1]) (by rw [e2, h2])
    obtain ⟨h1, h2⟩ := key ws LatticeTrie.init wf_init hws rfl rfl
    have hred : searchW (insertList LatticeTrie.init ws) [] =
        (((insertList LatticeTrie.init ws).heap 0).is_end_of_word ||
          (match lookupE ((insertList LatticeTrie.init ws).heap 0).children
              .endL with
           | some t => decide (t = 1)
           | none => false)) := rfl
    rw [hred, h1, h2]
    rfl

/-- Witness for C10 at concrete inputs. -/
theorem c10_empty_word_policy_witness :
    searchW (insertW LatticeTrie.init []) [] = true ∧
    searchW (insertList LatticeTrie.init [['a']]) [] = false :=
  ⟨(c10_empty_word_policy.1 LatticeTrie.init).2.2,
   c10_empty_word_policy.2 [['a']] (by decide)⟩
